import Mathlib

/-!
Shallow embedding of the peer-discovery-and-connection-topology subsystem of
`gossipsub_testplan` (`discovery.go`), together with proofs of the claims of the specification.

Modelling conventions:
* `peer.ID` is modelled as `String` (libp2p peer IDs are string-typed).
* Go `int64` values are modelled as `Int`; where Go overflow semantics matter
  (the `NodeTypeSeq * 1000000` multiplication in `selectSinglePublisher`) the
  wraparound is made explicit via `wrap64`.
* Randomness (`rand.Perm`) is modelled by passing the permutation as an input.
* Channel/context interaction in `waitForPeers` is modelled by an explicit
  event stream consumed by the receive loop; a blocked execution (the stream
  runs out while the loop still waits) is `none`.
* Go `panic` and Go `error` returns are both modelled as `Except` errors,
  with distinct constructors for the distinct error conditions.
* Mutex-guarded code (`ps.lk`, `s.connectedLk`) executes its critical sections
  serially, so calls are modelled as sequential state transformers.
-/

/-- Peer identifiers (`peer.ID` in go-libp2p), modelled as strings. -/
abbrev PeerID := String

/-- Addressing record (`peer.AddrInfo` in go-libp2p): an identity plus its multiaddresses. -/
structure AddrInfo where
  ID : PeerID
  Addrs : List String
  deriving DecidableEq, Repr, Inhabited

/-- PeerRegistration (discovery.go): the record each node publishes on the
registration channel. -/
structure PeerRegistration where
  Info : AddrInfo
  NodeTypeSeq : Int
  IsPublisher : Bool
  deriving DecidableEq, Repr, Inhabited

/-- The constant MaxConnectRetries (discovery.go). -/
def MaxConnectRetries : Nat := 10

/-- Wraparound of Go int64 arithmetic (twos complement). -/
def wrap64 (x : Int) : Int := (x + 2 ^ 63) % 2 ^ 64 - 2 ^ 63

/-- RandomTopology.SelectPeers (discovery.go).  The permutation produced by
`rand.Perm(len(remote))` is passed in as `indices`; `Count` is the count field
of the topology (used with nonnegative values; a negative Go `int` count would
make `make([]PeerRegistration, n)` panic, a path the harness never takes). -/
def RandomTopology.SelectPeers (Count : Nat) (indices : List Nat)
    (_local : PeerID) (remote : List PeerRegistration) : List PeerRegistration :=
  if remote.length = 0 ∨ Count = 0 then []
  else
    let n := min Count remote.length
    (indices.take n).map (fun i => remote.getD i default)

/-- The accumulator loop of `selectSinglePublisher` (discovery.go): scans the
peers keeping the publisher with the lowest `NodeTypeSeq * 1000000` seen so
far, where a negative `lowest` means "not yet set". -/
def spLoop : List PeerRegistration → Int → PeerRegistration → Int × PeerRegistration
  | [], lowest, lowestp => (lowest, lowestp)
  | p :: rest, lowest, lowestp =>
    if p.IsPublisher then
      let current := wrap64 (p.NodeTypeSeq * 1000000)
      if lowest < 0 ∨ current < lowest then spLoop rest current p
      else spLoop rest lowest lowestp
    else spLoop rest lowest lowestp

/-- selectSinglePublisher (discovery.go): the loop starts with
`lowest = -1` and the zero-valued `lowestp`, and returns `nil` iff `lowest`
is still `-1` at the end. -/
def selectSinglePublisher (peers : List PeerRegistration) : Option PeerRegistration :=
  let r := spLoop peers (-1) default
  if r.1 = -1 then none else some r.2

/-- SinglePublisherTopology.SelectPeers (discovery.go). -/
def SinglePublisherTopology.SelectPeers (_local : PeerID)
    (remote : List PeerRegistration) : List PeerRegistration :=
  match selectSinglePublisher remote with
  | some publisher => [publisher]
  | none => []

/-- Errors of the embedded subsystem.  `malformedTopologySpec` is the
`panic("Badly formatted topology file")` in `FixedTopology.SelectPeers`;
`emptyTopologySelection` is the `panic("topology selected zero peers...")`
in `ConnectTopology` / `ConnectingToPeers`. -/
inductive TopoErr where
  | malformedTopologySpec (spec : String)
  | emptyTopologySelection
  deriving DecidableEq, Repr

/-- Split a character list at every occurrence of `sep`, keeping empty
fields: the semantics of Go `strings.Split` for the single-character
separator "-" used by the source (strings are modelled as their character
lists so that the split is structurally recursive). -/
def splitOnChar (sep : Char) : List Char → List (List Char)
  | [] => [[]]
  | c :: cs =>
    let r := splitOnChar sep cs
    if c = sep then [] :: r
    else
      match r with
      | [] => [[c]]
      | h :: t => (c :: h) :: t

/-- The specifier loop of `FixedTopology.SelectPeers` (discovery.go): each
connection spec is split on `"-"`, must have exactly three parts, and selects
every remote peer whose `NodeTypeSeq` stringifies (via `strconv.Itoa`) to the
first part. -/
def fixedLoop (remote : List PeerRegistration) :
    List String → Except TopoErr (List PeerRegistration)
  | [] => .ok []
  | conn :: rest =>
    let parts := splitOnChar '-' conn.toList
    if parts.length ≠ 3 then .error (.malformedTopologySpec conn)
    else
      match fixedLoop remote rest with
      | .error e => .error e
      | .ok out => .ok ((remote.filter
          (fun p => parts.headD [] = (toString p.NodeTypeSeq).toList)) ++ out)

/-- FixedTopology.SelectPeers (discovery.go): returns `[]` immediately when
`remote` is empty, otherwise runs the specifier loop. -/
def FixedTopology.SelectPeers (Connections : List String) (_local : PeerID)
    (remote : List PeerRegistration) : Except TopoErr (List PeerRegistration) :=
  if remote.length = 0 then .ok []
  else fixedLoop remote Connections

/-! Peer Registry (PeerSubscriber). -/

/-- Errors that `waitForPeers` / `registerAndWait` can return.
`cancelled` is `ctx.Err()` (context.Canceled / DeadlineExceeded);
`insufficientPeers` is the `"not enough peer infos..."`
error returned when the registration channel closes early;
`subscribeErr` is a failure of `client.Subscribe`;
`publishErr` is a failure of `client.Publish` inside `register`. -/
inductive WaitErr where
  | cancelled
  | insufficientPeers (expected got : Nat)
  | subscribeErr
  | publishErr
  deriving DecidableEq, Repr

/-- One event observed by the `select` in the receive loop of `waitForPeers`:
a registration arrives on `peerCh`, the channel is closed by the sync client,
or the context of the caller fires. -/
inductive ChEvent where
  | recv (r : PeerRegistration)
  | closed
  | ctxDone
  deriving DecidableEq, Repr

/-- The mutable state of a `PeerSubscriber`: the memoized `peers` slice
(`none` models the Go `nil` slice) and, for bookkeeping the claims mention, the number of `client.Subscribe` calls made so far. -/
structure PSState where
  peers : Option (List PeerRegistration)
  subCount : Nat
  deriving DecidableEq, Repr

/-- A fresh `PeerSubscriber` (`NewPeerSubscriber`): `peers` is the nil slice
and no subscription has been made. -/
def NewPeerSubscriber : PSState := { peers := none, subCount := 0 }

/-- The receive loop of `waitForPeers` (`for i := 0; i < containerCount; i++`
with the `select` inside): `need` counts the iterations still to run, `acc`
is the list accumulated in `ps.peers` so far.  Returns `none` when the event
stream is exhausted while the loop still waits (a blocked execution). -/
def waitLoop (containerCount : Nat) :
    Nat → List PeerRegistration → List ChEvent →
    Option (Except WaitErr (List PeerRegistration) × List PeerRegistration)
  | 0, acc, _ => some (.ok acc, acc)
  | _ + 1, _, [] => none
  | need + 1, acc, ev :: evs =>
    match ev with
    | .recv r => waitLoop containerCount need (acc ++ [r]) evs
    | .closed => some (.error (.insufficientPeers containerCount acc.length), acc)
    | .ctxDone => some (.error .cancelled, acc)

/-- PeerSubscriber.waitForPeers (discovery.go).  The mutex serializes
calls, so a call is a state transformer.  If `peers` is already non-nil the
memoized value is returned at once; otherwise `ps.peers` is set to the empty
slice, `client.Subscribe` is invoked (its success is the `subOk` input), and
the receive loop consumes `events`.  Note the Go code mutates `ps.peers` as
records arrive, so even an erroring pass leaves the accumulated list behind. -/
def waitForPeers (st : PSState) (containerCount : Nat) (subOk : Bool)
    (events : List ChEvent) :
    Option (Except WaitErr (List PeerRegistration) × PSState) :=
  match st.peers with
  | some ps => some (.ok ps, st)
  | none =>
    if subOk then
      match waitLoop containerCount containerCount [] events with
      | none => none
      | some (res, acc) => some (res, { peers := some acc, subCount := st.subCount + 1 })
    else
      some (.error .subscribeErr, { peers := some [], subCount := st.subCount + 1 })

/-- PeerSubscriber.register (discovery.go): publishes the local record;
`pubOk` is the success of `client.Publish`. -/
def register (pubOk : Bool) (_entry : PeerRegistration) : Except WaitErr Unit :=
  if pubOk then .ok () else .error .publishErr

/-- The self-filtering step of `SyncDiscovery.registerAndWait` (discovery.go):
`s.allPeers` keeps exactly the received records whose `Info.ID` differs from
the ID of the local host, in arrival order. -/
def filterSelf (localID : PeerID) (peers : List PeerRegistration) :
    List PeerRegistration :=
  peers.filter (fun p => p.Info.ID ≠ localID)

/-- SyncDiscovery.registerAndWait (discovery.go): registers the local
record, waits for all peers, and on success stores the self-filtered list
(returned here alongside the subscriber state). -/
def registerAndWait (st : PSState) (localID : PeerID) (entry : PeerRegistration)
    (pubOk : Bool) (containerCount : Nat) (subOk : Bool) (events : List ChEvent) :
    Option (Except WaitErr (List PeerRegistration) × PSState) :=
  match register pubOk entry with
  | .error e => some (.error e, st)
  | .ok () =>
    match waitForPeers st containerCount subOk events with
    | none => none
    | some (.error e, st') => some (.error e, st')
    | some (.ok peers, st') => some (.ok (filterSelf localID peers), st')

/-! Connection Coordinator. -/

/-- The dispatch loop shared by `ConnectTopology` and `ConnectingToPeers`
(discovery.go), run under `s.connectedLk`: for each selected peer not yet in
`s.connected`, the peer is inserted into `connected` first and a connection
attempt (`connectWithRetry`) is dispatched.  Returns the updated connected
set (as the list of its keys with their registrations) and the list of peers
for which an attempt was dispatched. -/
def connectLoop :
    List (PeerID × PeerRegistration) → List PeerRegistration →
    List (PeerID × PeerRegistration) × List PeerRegistration
  | connected, [] => (connected, [])
  | connected, p :: rest =>
    if p.Info.ID ∈ connected.map Prod.fst then
      connectLoop connected rest
    else
      let r := connectLoop (connected ++ [(p.Info.ID, p)]) rest
      (r.1, p :: r.2)

/-- SyncDiscovery.ConnectTopology (discovery.go), after the initial delay:
selects peers via the topology, panics (`emptyTopologySelection`) if the
selection is empty, and otherwise runs the dispatch loop. -/
def ConnectTopology (select : PeerID → List PeerRegistration → List PeerRegistration)
    (localID : PeerID) (allPeers : List PeerRegistration)
    (connected : List (PeerID × PeerRegistration)) :
    Except TopoErr (List (PeerID × PeerRegistration) × List PeerRegistration) :=
  let selected := select localID allPeers
  if selected.length = 0 then .error .emptyTopologySelection
  else .ok (connectLoop connected selected)

/-- SyncDiscovery.ConnectingToPeers (discovery.go): same as
`ConnectTopology` but the selected peers are passed in directly. -/
def ConnectingToPeers (peers : List PeerRegistration)
    (connected : List (PeerID × PeerRegistration)) :
    Except TopoErr (List (PeerID × PeerRegistration) × List PeerRegistration) :=
  let selected := peers
  if selected.length = 0 then .error .emptyTopologySelection
  else .ok (connectLoop connected selected)

/-! Retries: connectWithRetry and the retry-go Do loop. -/

/-- The loop of `retry.Do` (github.com/avast/retry-go) as configured by
`connectWithRetry`: all dial errors are recoverable, `OnRetry` runs after
every failed attempt except the last one, and a success returns immediately.
`ok n` tells whether the dial of attempt index `n` (0-based, as in retry-go)
succeeds; `remaining` is `attempts - n`.  Returns whether the call succeeded,
the number of dial attempts performed, and the number of `OnRetry` runs
(each of which clears the swarm's dial backoff for the peer). -/
def retryAux (ok : Nat → Bool) : Nat → Nat → Nat × Nat × Bool
  | 0, _ => (0, 0, false)
  | remaining + 1, n =>
    if ok n then (1, 0, true)
    else if remaining = 0 then (1, 0, false)
    else
      let r := retryAux ok remaining (n + 1)
      (r.1 + 1, r.2.1 + 1, r.2.2)

/-- SyncDiscovery.connectWithRetry (discovery.go): the call to `retry.Do` with
`retry.Attempts(MaxConnectRetries)` and an `OnRetry` hook that clears the
swarm dial backoff for the peer.  Returns
`(dials, backoffClears, succeeded)`. -/
def connectWithRetry (ok : Nat → Bool) : Nat × Nat × Bool :=
  retryAux ok MaxConnectRetries 0

/-! Auxiliary definitions used to state and prove the claims. -/

/-- The scan of `spLoop` re-expressed without the sentinel accumulator: keep
the earliest peer among the publishers with the strictly lowest sequence
number, starting from `lp`.  Intermediate description used in the proofs
about `selectSinglePublisher`. -/
def pickLowest (lp : PeerRegistration) : List PeerRegistration → PeerRegistration
  | [] => lp
  | p :: rest =>
    if p.IsPublisher = true ∧ p.NodeTypeSeq < lp.NodeTypeSeq then pickLowest p rest
    else pickLowest lp rest

/-- Sequence numbers in this range keep `NodeTypeSeq * 1000000` inside the
int64 range and nonnegative, so the wraparound in `spLoop` is the identity
and the sentinel `lowest < 0` is never retriggered. -/
def seqInRange (p : PeerRegistration) : Prop :=
  0 ≤ p.NodeTypeSeq ∧ p.NodeTypeSeq ≤ 9223372036854

/-- A sequence of calls to `ConnectingToPeers` against one shared connected
set (the per-call peer lists may overlap): each call that selects a nonempty
list runs the dispatch loop, an erroring call leaves the state unchanged.
Returns the final connected set and the concatenation of every dispatched
attempt, in order. -/
def runCalls : List (PeerID × PeerRegistration) → List (List PeerRegistration) →
    List (PeerID × PeerRegistration) × List PeerRegistration
  | connected, [] => (connected, [])
  | connected, sel :: rest =>
    match ConnectingToPeers sel connected with
    | .error _ => runCalls connected rest
    | .ok r =>
      let r2 := runCalls r.1 rest
      (r2.1, r.2 ++ r2.2)

/-- Sample registration: publisher with sequence number 5. -/
def regA : PeerRegistration :=
  { Info := { ID := "A", Addrs := [] }, NodeTypeSeq := 5, IsPublisher := true }

/-- Sample registration: lurker with sequence number 7. -/
def regB : PeerRegistration :=
  { Info := { ID := "B", Addrs := [] }, NodeTypeSeq := 7, IsPublisher := false }

/-- Sample registration standing for the local node. -/
def regL : PeerRegistration :=
  { Info := { ID := "L", Addrs := [] }, NodeTypeSeq := 1, IsPublisher := true }

/-- Sample registration: publisher with a negative sequence number. -/
def regNeg : PeerRegistration :=
  { Info := { ID := "N", Addrs := [] }, NodeTypeSeq := -5, IsPublisher := true }

/-- Sample registration: publisher with sequence number 3. -/
def regP3 : PeerRegistration :=
  { Info := { ID := "P", Addrs := [] }, NodeTypeSeq := 3, IsPublisher := true }

/-! Theorems.  Claim theorems are marked with their claim id. -/

theorem waitLoop_ok_acc (cc : Nat) :
    ∀ (need : Nat) (acc : List PeerRegistration) (evs : List ChEvent)
      (v acc2 : List PeerRegistration),
      waitLoop cc need acc evs = some (.ok v, acc2) → v = acc2 := by
  intro need
  induction need with
  | zero =>
    intro acc evs v acc2 h
    simp only [waitLoop, Option.some.injEq, Prod.mk.injEq, Except.ok.injEq] at h
    obtain ⟨h1, h2⟩ := h
    subst h1
    exact h2
  | succ m ih =>
    intro acc evs v acc2 h
    cases evs with
    | nil => simp [waitLoop] at h
    | cons ev evs =>
      cases ev with
      | recv r => exact ih _ _ _ _ (by simpa [waitLoop] using h)
      | closed => simp [waitLoop] at h
      | ctxDone => simp [waitLoop] at h

/-- C1: after a first successful collection pass of `waitForPeers`, a second
call (with any subscription outcome and any later channel behaviour, from the
same or another serialized caller) returns the identical cached result with
the subscriber state unchanged, and the first pass made exactly one
subscription to the registration channel. -/
theorem waitForPeers_memoizes (st : PSState) (cc : Nat) (subOk : Bool)
    (events : List ChEvent) (r : List PeerRegistration) (st₁ : PSState)
    (hfresh : st.peers = none)
    (h : waitForPeers st cc subOk events = some (.ok r, st₁)) :
    (∀ (subOk2 : Bool) (events2 : List ChEvent),
        waitForPeers st₁ cc subOk2 events2 = some (.ok r, st₁)) ∧
    st₁.subCount = st.subCount + 1 := by
  unfold waitForPeers at h
  rw [hfresh] at h
  cases subOk with
  | false => simp at h
  | true =>
    simp only [if_true] at h
    cases hw : waitLoop cc cc [] events with
    | none => rw [hw] at h; simp at h
    | some res =>
      obtain ⟨res1, res2⟩ := res
      rw [hw] at h
      simp only [Option.some.injEq, Prod.mk.injEq] at h
      obtain ⟨h1, h2⟩ := h
      subst h1
      have hacc : r = res2 := waitLoop_ok_acc cc cc [] events r res2 hw
      subst hacc
      subst h2
      exact ⟨fun subOk2 events2 => rfl, rfl⟩

/-- Witness for C1 at a concrete one-peer collection. -/
theorem waitForPeers_memoizes_witness :
    (∀ (subOk2 : Bool) (events2 : List ChEvent),
        waitForPeers { peers := some [regA], subCount := 1 } 1 subOk2 events2 =
          some (.ok [regA], { peers := some [regA], subCount := 1 })) ∧
    ({ peers := some [regA], subCount := 1 } : PSState).subCount =
      NewPeerSubscriber.subCount + 1 :=
  waitForPeers_memoizes NewPeerSubscriber 1 true [.recv regA] [regA]
    { peers := some [regA], subCount := 1 } rfl rfl

theorem waitLoop_ctxDone (cc : Nat) (rest : List ChEvent) :
    ∀ (rs : List PeerRegistration) (need : Nat) (acc : List PeerRegistration),
      rs.length < need →
      waitLoop cc need acc (rs.map ChEvent.recv ++ ChEvent.ctxDone :: rest) =
        some (.error .cancelled, acc ++ rs) := by
  intro rs
  induction rs with
  | nil =>
    intro need acc hlt
    cases need with
    | zero => exact absurd hlt (by simp)
    | succ m => simp [waitLoop]
  | cons r rs ih =>
    intro need acc hlt
    cases need with
    | zero => exact absurd hlt (by omega)
    | succ m =>
      simp only [List.map_cons, List.cons_append, List.append_eq, waitLoop]
      rw [ih m (acc ++ [r]) (by simpa using Nat.lt_of_succ_lt_succ hlt)]
      simp

theorem waitLoop_closed (cc : Nat) (rest : List ChEvent) :
    ∀ (rs : List PeerRegistration) (need : Nat) (acc : List PeerRegistration),
      rs.length < need →
      waitLoop cc need acc (rs.map ChEvent.recv ++ ChEvent.closed :: rest) =
        some (.error (.insufficientPeers cc (acc ++ rs).length), acc ++ rs) := by
  intro rs
  induction rs with
  | nil =>
    intro need acc hlt
    cases need with
    | zero => exact absurd hlt (by simp)
    | succ m => simp [waitLoop]
  | cons r rs ih =>
    intro need acc hlt
    cases need with
    | zero => exact absurd hlt (by omega)
    | succ m =>
      simp only [List.map_cons, List.cons_append, List.append_eq, waitLoop]
      rw [ih m (acc ++ [r]) (by simpa using Nat.lt_of_succ_lt_succ hlt)]
      simp

/-- C2: a collection pass that has received fewer registrations than expected
returns the context error when the cancellation signal fires, returns the
distinct insufficient-peers error (with the expected and received counts)
when the registration channel closes early, and the two errors are
distinguishable. -/
theorem waitForPeers_error_modes (st : PSState) (cc : Nat)
    (rs : List PeerRegistration) (evs1 evs2 : List ChEvent)
    (hfresh : st.peers = none) (hlt : rs.length < cc) :
    waitForPeers st cc true (rs.map ChEvent.recv ++ ChEvent.ctxDone :: evs1) =
      some (.error .cancelled, { peers := some rs, subCount := st.subCount + 1 }) ∧
    waitForPeers st cc true (rs.map ChEvent.recv ++ ChEvent.closed :: evs2) =
      some (.error (.insufficientPeers cc rs.length),
        { peers := some rs, subCount := st.subCount + 1 }) ∧
    WaitErr.cancelled ≠ WaitErr.insufficientPeers cc rs.length := by
  refine ⟨?_, ?_, by simp⟩
  · unfold waitForPeers
    rw [hfresh]
    simp only [if_true]
    rw [waitLoop_ctxDone cc evs1 rs cc [] hlt]
    simp
  · unfold waitForPeers
    rw [hfresh]
    simp only [if_true]
    rw [waitLoop_closed cc evs2 rs cc [] hlt]
    simp

/-- Witness for C2 with an immediately cancelled (resp. closed) channel. -/
theorem waitForPeers_error_modes_witness :
    waitForPeers NewPeerSubscriber 1 true [ChEvent.ctxDone] =
      some (.error .cancelled, { peers := some [], subCount := 1 }) ∧
    waitForPeers NewPeerSubscriber 1 true [ChEvent.closed] =
      some (.error (.insufficientPeers 1 0), { peers := some [], subCount := 1 }) ∧
    WaitErr.cancelled ≠ WaitErr.insufficientPeers 1 0 :=
  waitForPeers_error_modes NewPeerSubscriber 1 [] [] [] rfl (by decide)

theorem retryAux_succ (ok : Nat → Bool) (m n : Nat) :
    retryAux ok (m + 1) n =
      if ok n then (1, 0, true)
      else if m = 0 then (1, 0, false)
      else ((retryAux ok m (n + 1)).1 + 1, (retryAux ok m (n + 1)).2.1 + 1,
            (retryAux ok m (n + 1)).2.2) := rfl

theorem retryAux_invariant (ok : Nat → Bool) :
    ∀ (remaining n : Nat), 1 ≤ remaining →
      1 ≤ (retryAux ok remaining n).1 ∧
      (retryAux ok remaining n).1 ≤ remaining ∧
      (retryAux ok remaining n).2.1 + 1 = (retryAux ok remaining n).1 := by
  intro remaining
  induction remaining with
  | zero => intro n h; exact absurd h (by omega)
  | succ m ih =>
    intro n _
    rw [retryAux_succ]
    cases hok : ok n with
    | true => simp
    | false =>
      by_cases hm : m = 0
      · subst hm; simp
      · have h3 := ih (n + 1) (by omega)
        rw [if_neg (by simp), if_neg hm]
        dsimp only
        exact ⟨by omega, by omega, by omega⟩

theorem retryAux_succeeds (ok : Nat → Bool) :
    ∀ (k remaining n : Nat),
      (∀ i, i < k → ok (n + i) = false) → ok (n + k) = true →
      k + 1 ≤ remaining →
      retryAux ok remaining n = (k + 1, k, true) := by
  intro k
  induction k with
  | zero =>
    intro remaining n hfail hsucc hle
    cases remaining with
    | zero => exact absurd hle (by omega)
    | succ m =>
      have hn : ok n = true := by simpa using hsucc
      rw [retryAux_succ, if_pos hn]
  | succ j ih =>
    intro remaining n hfail hsucc hle
    cases remaining with
    | zero => exact absurd hle (by omega)
    | succ m =>
      have hn : ok n = false := by simpa using hfail 0 (by omega)
      have hm : m ≠ 0 := by omega
      have harg : ∀ i, i < j → ok (n + 1 + i) = false := by
        intro i hi
        have : n + 1 + i = n + (i + 1) := by omega
        rw [this]
        exact hfail (i + 1) (by omega)
      have hs : ok (n + 1 + j) = true := by
        have : n + 1 + j = n + (j + 1) := by omega
        rw [this]
        exact hsucc
      have hrec := ih m (n + 1) harg hs (by omega)
      rw [retryAux_succ, if_neg (by simp [hn]), if_neg hm, hrec]

/-- C3: `connectWithRetry` performs at most `MaxConnectRetries` (= 10) dial
attempts and clears the dial-backoff cache after every failed attempt except
the last attempt performed, never after a success; in particular if the dial
fails on the first `k` attempts and succeeds on attempt `k + 1` (within the
maximum) the call succeeds with exactly `k + 1` dials and `k` backoff
clears. -/
theorem connectWithRetry_spec (ok : Nat → Bool) (k : Nat)
    (hfail : ∀ i, i < k → ok i = false) (hsucc : ok k = true)
    (hk : k + 1 ≤ MaxConnectRetries) :
    connectWithRetry ok = (k + 1, k, true) ∧
    (∀ ok2 : Nat → Bool,
      1 ≤ (connectWithRetry ok2).1 ∧
      (connectWithRetry ok2).1 ≤ MaxConnectRetries ∧
      (connectWithRetry ok2).2.1 + 1 = (connectWithRetry ok2).1) := by
  constructor
  · have h := retryAux_succeeds ok k MaxConnectRetries 0
      (fun i hi => by simpa using hfail i hi) (by simpa using hsucc) hk
    simpa [connectWithRetry] using h
  · intro ok2
    have h := retryAux_invariant ok2 MaxConnectRetries 0 (by decide)
    simpa [connectWithRetry] using h

/-- Witness for C3: failures on attempts 1 through 3 and success on attempt
4 give four dials and three backoff clears. -/
theorem connectWithRetry_spec_witness :
    connectWithRetry (fun i => decide (3 ≤ i)) = (4, 3, true) ∧
    (∀ ok2 : Nat → Bool,
      1 ≤ (connectWithRetry ok2).1 ∧
      (connectWithRetry ok2).1 ≤ MaxConnectRetries ∧
      (connectWithRetry ok2).2.1 + 1 = (connectWithRetry ok2).1) :=
  connectWithRetry_spec (fun i => decide (3 ≤ i)) 3 (by decide) (by decide)
    (by decide)

/-- C9: when the topology selects zero peers, `ConnectTopology` (and
`ConnectingToPeers` given an empty peer list) aborts with the fatal
empty-selection panic instead of dialling anyone. -/
theorem connect_empty_selection_fatal
    (select : PeerID → List PeerRegistration → List PeerRegistration)
    (localID : PeerID) (allPeers : List PeerRegistration)
    (connected : List (PeerID × PeerRegistration)) (peers : List PeerRegistration)
    (hsel : select localID allPeers = []) (hp : peers = []) :
    ConnectTopology select localID allPeers connected =
      .error .emptyTopologySelection ∧
    ConnectingToPeers peers connected = .error .emptyTopologySelection := by
  subst hp
  exact ⟨by simp [ConnectTopology, hsel], by simp [ConnectingToPeers]⟩

/-- Witness for C9 with a selector that returns no peers. -/
theorem connect_empty_selection_fatal_witness :
    ConnectTopology (fun _ _ => []) "L" [] [] = .error .emptyTopologySelection ∧
    ConnectingToPeers [] [] = .error .emptyTopologySelection :=
  connect_empty_selection_fatal (fun _ _ => []) "L" [] [] [] rfl rfl

/-- C10: with an empty remote list `FixedTopology.SelectPeers` returns the
empty selection for every connection-spec list, malformed specifiers
included, so the malformed-specifier error can only arise with a non-empty
remote list. -/
theorem fixedTopology_empty_remote (Connections : List String)
    (localID : PeerID) :
    FixedTopology.SelectPeers Connections localID [] = .ok [] := by
  simp [FixedTopology.SelectPeers]

theorem filterSelf_length (localID : PeerID) (peers : List PeerRegistration) :
    (filterSelf localID peers).length +
      peers.countP (fun p => p.Info.ID = localID) = peers.length := by
  induction peers with
  | nil => simp [filterSelf]
  | cons p ps ih =>
    by_cases h : p.Info.ID = localID
    · simp [filterSelf, List.filter_cons, List.countP_cons, h] at ih ⊢
      omega
    · simp [filterSelf, List.filter_cons, List.countP_cons, h] at ih ⊢
      omega

/-- C8: a successful `registerAndWait` run stores exactly the received
records whose identity differs from the local identity; when the collection
pass returned `n` records of which exactly one carries the local identity,
the stored list has `n - 1` entries and never contains the local node. -/
theorem registerAndWait_filters_self (st : PSState) (localID : PeerID)
    (entry : PeerRegistration) (cc : Nat) (subOk : Bool) (events : List ChEvent)
    (peers : List PeerRegistration) (st₁ : PSState) (n : Nat)
    (hw : waitForPeers st cc subOk events = some (.ok peers, st₁))
    (hn : peers.length = n)
    (hone : peers.countP (fun p => p.Info.ID = localID) = 1) :
    registerAndWait st localID entry true cc subOk events =
      some (.ok (filterSelf localID peers), st₁) ∧
    (filterSelf localID peers).length = n - 1 ∧
    (∀ p, p ∈ filterSelf localID peers ↔ p ∈ peers ∧ p.Info.ID ≠ localID) := by
  refine ⟨?_, ?_, ?_⟩
  · simp [registerAndWait, register, hw]
  · have hsplit := filterSelf_length localID peers
    omega
  · intro p
    simp [filterSelf, List.mem_filter]

/-- Witness for C8: two records arrive, one of them the local record; the
stored list is the single remote record. -/
theorem registerAndWait_filters_self_witness :
    registerAndWait NewPeerSubscriber "L" regL true 2 true
        [.recv regL, .recv regA] =
      some (.ok (filterSelf "L" [regL, regA]),
        { peers := some [regL, regA], subCount := 1 }) ∧
    (filterSelf "L" [regL, regA]).length = 2 - 1 ∧
    (∀ p, p ∈ filterSelf "L" [regL, regA] ↔
      p ∈ [regL, regA] ∧ p.Info.ID ≠ "L") :=
  registerAndWait_filters_self NewPeerSubscriber "L" regL 2 true
    [.recv regL, .recv regA] [regL, regA]
    { peers := some [regL, regA], subCount := 1 } 2 rfl rfl (by decide)

theorem connectLoop_cons (connected : List (PeerID × PeerRegistration))
    (p : PeerRegistration) (rest : List PeerRegistration) :
    connectLoop connected (p :: rest) =
      if p.Info.ID ∈ connected.map Prod.fst then connectLoop connected rest
      else ((connectLoop (connected ++ [(p.Info.ID, p)]) rest).1,
            p :: (connectLoop (connected ++ [(p.Info.ID, p)]) rest).2) := rfl

theorem connectLoop_keys (sel : List PeerRegistration) :
    ∀ connected, (connectLoop connected sel).1.map Prod.fst =
      connected.map Prod.fst ++
        (connectLoop connected sel).2.map (fun p => p.Info.ID) := by
  induction sel with
  | nil => intro connected; simp [connectLoop]
  | cons p rest ih =>
    intro connected
    rw [connectLoop_cons]
    by_cases h : p.Info.ID ∈ connected.map Prod.fst
    · rw [if_pos h]; exact ih connected
    · rw [if_neg h]
      dsimp only
      rw [ih (connected ++ [(p.Info.ID, p)])]
      simp

theorem connectLoop_dispatch_new (sel : List PeerRegistration) :
    ∀ connected, ∀ p ∈ (connectLoop connected sel).2,
      p.Info.ID ∉ connected.map Prod.fst := by
  induction sel with
  | nil => intro connected p hp; simp [connectLoop] at hp
  | cons q rest ih =>
    intro connected p hp
    rw [connectLoop_cons] at hp
    by_cases h : q.Info.ID ∈ connected.map Prod.fst
    · rw [if_pos h] at hp; exact ih connected p hp
    · rw [if_neg h] at hp
      dsimp only at hp
      rcases List.mem_cons.mp hp with rfl | hp2
      · exact h
      · intro hmem
        exact ih (connected ++ [(q.Info.ID, q)]) p hp2 (by simp [hmem])

theorem connectLoop_nodup (sel : List PeerRegistration) :
    ∀ connected,
      ((connectLoop connected sel).2.map (fun p => p.Info.ID)).Nodup := by
  induction sel with
  | nil => intro connected; simp [connectLoop]
  | cons q rest ih =>
    intro connected
    rw [connectLoop_cons]
    by_cases h : q.Info.ID ∈ connected.map Prod.fst
    · rw [if_pos h]; exact ih connected
    · rw [if_neg h]
      dsimp only
      rw [List.map_cons]
      refine List.nodup_cons.mpr ⟨?_, ih _⟩
      intro hmem
      obtain ⟨p, hp, hid⟩ := List.mem_map.mp hmem
      have hnew := connectLoop_dispatch_new rest (connected ++ [(q.Info.ID, q)]) p hp
      exact hnew (by simp [hid])

theorem runCalls_cons (connected : List (PeerID × PeerRegistration))
    (sel : List PeerRegistration) (rest : List (List PeerRegistration)) :
    runCalls connected (sel :: rest) =
      if sel.length = 0 then runCalls connected rest
      else ((runCalls (connectLoop connected sel).1 rest).1,
            (connectLoop connected sel).2 ++
              (runCalls (connectLoop connected sel).1 rest).2) := by
  by_cases h : sel.length = 0
  · rw [if_pos h]
    simp [runCalls, ConnectingToPeers, h]
  · rw [if_neg h]
    simp [runCalls, ConnectingToPeers, h]

theorem runCalls_invariant (calls : List (List PeerRegistration)) :
    ∀ connected,
      (((runCalls connected calls).2).map (fun p => p.Info.ID)).Nodup ∧
      (∀ p ∈ (runCalls connected calls).2,
        p.Info.ID ∉ connected.map Prod.fst) ∧
      ((runCalls connected calls).1.map Prod.fst =
        connected.map Prod.fst ++
          ((runCalls connected calls).2.map (fun p => p.Info.ID))) := by
  induction calls with
  | nil => intro connected; simp [runCalls]
  | cons sel rest ih =>
    intro connected
    rw [runCalls_cons]
    by_cases h : sel.length = 0
    · rw [if_pos h]; exact ih connected
    · rw [if_neg h]
      dsimp only
      obtain ⟨ihnd, ihnew, ihkeys⟩ := ih (connectLoop connected sel).1
      have hkeys1 := connectLoop_keys sel connected
      refine ⟨?_, ?_, ?_⟩
      · rw [List.map_append]
        refine List.Nodup.append (connectLoop_nodup sel connected) ihnd ?_
        intro a ha hb
        obtain ⟨p, hp, rfl⟩ := List.mem_map.mp ha
        obtain ⟨q, hq, hpq⟩ := List.mem_map.mp hb
        have hnot := ihnew q hq
        rw [hkeys1] at hnot
        refine hnot (List.mem_append.mpr (Or.inr ?_))
        exact hpq ▸ List.mem_map_of_mem _ hp
      · intro p hp
        rcases List.mem_append.mp hp with h1 | h2
        · exact connectLoop_dispatch_new sel connected p h1
        · have hnot := ihnew p h2
          rw [hkeys1] at hnot
          intro hmem
          exact hnot (List.mem_append.mpr (Or.inl hmem))
      · rw [ihkeys, hkeys1]
        simp

/-- C4: over any serialized sequence of calls to the connection entry points
with possibly overlapping peer lists, the dispatched attempts carry pairwise
distinct peer identities, no attempt targets an identity already in the
connected set, the connected set grows exactly by the dispatched identities
(inserted at dispatch time), and `ConnectTopology` dispatches through the
same code path as `ConnectingToPeers`. -/
theorem connect_no_duplicate_attempts
    (connected : List (PeerID × PeerRegistration))
    (calls : List (List PeerRegistration)) :
    (((runCalls connected calls).2).map (fun p => p.Info.ID)).Nodup ∧
    (∀ p ∈ (runCalls connected calls).2,
      p.Info.ID ∉ connected.map Prod.fst) ∧
    ((runCalls connected calls).1.map Prod.fst =
      connected.map Prod.fst ++
        ((runCalls connected calls).2.map (fun p => p.Info.ID))) ∧
    (∀ (select : PeerID → List PeerRegistration → List PeerRegistration)
       (localID : PeerID) (allPeers : List PeerRegistration)
       (conn : List (PeerID × PeerRegistration)),
      ConnectTopology select localID allPeers conn =
        ConnectingToPeers (select localID allPeers) conn) :=
  ⟨(runCalls_invariant calls connected).1,
   (runCalls_invariant calls connected).2.1,
   (runCalls_invariant calls connected).2.2,
   fun _ _ _ _ => rfl⟩

/-- Counterexample to C5 as universally quantified: `SelectPeers` performs no
self-filtering and no de-duplication of its own, so when the remote list
contains the local record twice the selection repeats an identity and equals
the local node.  (`[0, 1]` is a possible output of `rand.Perm(2)`.) -/
theorem randomTopology_counterexample :
    RandomTopology.SelectPeers 2 [0, 1] "L" [regL, regL] = [regL, regL] ∧
    (∃ p ∈ RandomTopology.SelectPeers 2 [0, 1] "L" [regL, regL],
      p.Info.ID = "L") ∧
    ¬ ((RandomTopology.SelectPeers 2 [0, 1] "L" [regL, regL]).map
        (fun p => p.Info.ID)).Nodup := by decide

/-- C5 (amended): under the registry caller contract — pairwise-distinct
identities, local identity excluded — and with `indices` a permutation of
the remote index range as produced by `rand.Perm`, `SelectPeers` returns
exactly `min Count remote.length` peers drawn from `remote` with
pairwise-distinct identities, none equal to the local node; a zero count or
an empty remote list gives the empty selection rather than an error. -/
theorem randomTopology_selectPeers_spec (Count : Nat) (indices : List Nat)
    (localID : PeerID) (remote : List PeerRegistration)
    (hperm : indices.Perm (List.range remote.length))
    (hnd : (remote.map (fun p => p.Info.ID)).Nodup)
    (hlocal : localID ∉ remote.map (fun p => p.Info.ID)) :
    (RandomTopology.SelectPeers Count indices localID remote).length =
      min Count remote.length ∧
    ((RandomTopology.SelectPeers Count indices localID remote).map
      (fun p => p.Info.ID)).Nodup ∧
    (∀ p ∈ RandomTopology.SelectPeers Count indices localID remote,
      p ∈ remote ∧ p.Info.ID ≠ localID) ∧
    (Count = 0 ∨ remote = [] →
      RandomTopology.SelectPeers Count indices localID remote = []) := by
  by_cases htriv : remote.length = 0 ∨ Count = 0
  · have hsel : RandomTopology.SelectPeers Count indices localID remote = [] := by
      unfold RandomTopology.SelectPeers
      rw [if_pos htriv]
    refine ⟨?_, by simp [hsel], by simp [hsel], fun _ => hsel⟩
    rw [hsel]
    rcases htriv with h | h <;> simp [h]
  · push_neg at htriv
    obtain ⟨hlen, hC⟩ := htriv
    have hsel : RandomTopology.SelectPeers Count indices localID remote =
        (indices.take (min Count remote.length)).map
          (fun i => remote.getD i default) := by
      unfold RandomTopology.SelectPeers
      rw [if_neg (by omega)]
    have hlenind : indices.length = remote.length := by
      simpa using hperm.length_eq
    have hndind : indices.Nodup := hperm.nodup_iff.mpr (List.nodup_range _)
    have hmemind : ∀ i ∈ indices, i < remote.length := fun i hi =>
      List.mem_range.mp (hperm.mem_iff.mp hi)
    have htake_nd : (indices.take (min Count remote.length)).Nodup :=
      (List.take_sublist _ indices).nodup hndind
    have htake_mem : ∀ i ∈ indices.take (min Count remote.length),
        i < remote.length := fun i hi => hmemind i (List.mem_of_mem_take hi)
    refine ⟨?_, ?_, ?_, ?_⟩
    · rw [hsel, List.length_map, List.length_take, hlenind]
      omega
    · rw [hsel, List.map_map]
      refine List.Nodup.map_on ?_ htake_nd
      intro i hi j hj hij
      have hi2 := htake_mem i hi
      have hj2 := htake_mem j hj
      simp only [Function.comp_apply, List.getD_eq_getElem remote default hi2,
        List.getD_eq_getElem remote default hj2] at hij
      have hmi : i < (remote.map (fun p => p.Info.ID)).length := by
        simpa [List.length_map] using hi2
      have hmj : j < (remote.map (fun p => p.Info.ID)).length := by
        simpa [List.length_map] using hj2
      have : (remote.map (fun p => p.Info.ID))[i] =
          (remote.map (fun p => p.Info.ID))[j] := by
        simpa [List.getElem_map] using hij
      exact (hnd.getElem_inj_iff).mp this
    · intro p hp
      rw [hsel] at hp
      obtain ⟨i, hi, rfl⟩ := List.mem_map.mp hp
      have hi2 := htake_mem i hi
      rw [List.getD_eq_getElem remote default hi2]
      refine ⟨List.getElem_mem hi2, ?_⟩
      intro heq
      exact hlocal (heq ▸ List.mem_map_of_mem (fun p => p.Info.ID)
        (List.getElem_mem hi2))
    · intro h
      rcases h with h | h
      · exact absurd h hC
      · rw [h] at hlen; exact absurd rfl hlen

/-- Witness for C5 (amended) at a two-element registry with count 1. -/
theorem randomTopology_selectPeers_spec_witness :
    (RandomTopology.SelectPeers 1 [1, 0] "L" [regA, regB]).length =
      min 1 [regA, regB].length ∧
    ((RandomTopology.SelectPeers 1 [1, 0] "L" [regA, regB]).map
      (fun p => p.Info.ID)).Nodup ∧
    (∀ p ∈ RandomTopology.SelectPeers 1 [1, 0] "L" [regA, regB],
      p ∈ [regA, regB] ∧ p.Info.ID ≠ "L") ∧
    ((1 : Nat) = 0 ∨ ([regA, regB] : List PeerRegistration) = [] →
      RandomTopology.SelectPeers 1 [1, 0] "L" [regA, regB] = []) :=
  randomTopology_selectPeers_spec 1 [1, 0] "L" [regA, regB] (by decide)
    (by decide) (by decide)

theorem wrap64_eq (x : Int) (h1 : -(2 ^ 63) ≤ x) (h2 : x < 2 ^ 63) :
    wrap64 x = x := by
  have e63 : (2 : Int) ^ 63 = 9223372036854775808 := by norm_num
  have e64 : (2 : Int) ^ 64 = 18446744073709551616 := by norm_num
  rw [e63] at h1 h2
  unfold wrap64
  rw [e63, e64, Int.emod_eq_of_lt (by omega) (by omega)]
  omega

theorem seq_mul_bounds (p : PeerRegistration) (h : seqInRange p) :
    0 ≤ p.NodeTypeSeq * 1000000 ∧ p.NodeTypeSeq * 1000000 < 2 ^ 63 := by
  obtain ⟨h1, h2⟩ := h
  have e63 : (2 : Int) ^ 63 = 9223372036854775808 := by norm_num
  rw [e63]
  omega

theorem wrap64_seq (p : PeerRegistration) (h : seqInRange p) :
    wrap64 (p.NodeTypeSeq * 1000000) = p.NodeTypeSeq * 1000000 := by
  obtain ⟨hb1, hb2⟩ := seq_mul_bounds p h
  exact wrap64_eq _ (le_trans (by norm_num) hb1) hb2

theorem spLoop_cons (p : PeerRegistration) (rest : List PeerRegistration)
    (lowest : Int) (lowestp : PeerRegistration) :
    spLoop (p :: rest) lowest lowestp =
      if p.IsPublisher then
        if lowest < 0 ∨ wrap64 (p.NodeTypeSeq * 1000000) < lowest then
          spLoop rest (wrap64 (p.NodeTypeSeq * 1000000)) p
        else spLoop rest lowest lowestp
      else spLoop rest lowest lowestp := rfl

theorem pickLowest_cons (lp p : PeerRegistration)
    (rest : List PeerRegistration) :
    pickLowest lp (p :: rest) =
      if p.IsPublisher = true ∧ p.NodeTypeSeq < lp.NodeTypeSeq then
        pickLowest p rest
      else pickLowest lp rest := rfl

theorem spLoop_set (peers : List PeerRegistration) :
    ∀ lp : PeerRegistration, (∀ p ∈ peers, seqInRange p) → seqInRange lp →
      spLoop peers (wrap64 (lp.NodeTypeSeq * 1000000)) lp =
        (wrap64 ((pickLowest lp peers).NodeTypeSeq * 1000000),
         pickLowest lp peers) := by
  induction peers with
  | nil => intro lp _ _; rfl
  | cons p rest ih =>
    intro lp hb hlp
    have hbp : seqInRange p := hb p (List.mem_cons_self p rest)
    have hbrest : ∀ q ∈ rest, seqInRange q := fun q hq =>
      hb q (List.mem_cons_of_mem p hq)
    rw [spLoop_cons, pickLowest_cons]
    by_cases hpub : p.IsPublisher = true
    · rw [if_pos hpub]
      have hge : ¬ wrap64 (lp.NodeTypeSeq * 1000000) < 0 := by
        rw [wrap64_seq lp hlp]
        have := seq_mul_bounds lp hlp
        omega
      by_cases hlt : p.NodeTypeSeq < lp.NodeTypeSeq
      · have hcond : wrap64 (p.NodeTypeSeq * 1000000) <
            wrap64 (lp.NodeTypeSeq * 1000000) := by
          rw [wrap64_seq p hbp, wrap64_seq lp hlp]
          exact (mul_lt_mul_right (by norm_num)).mpr hlt
        rw [if_pos (Or.inr hcond), if_pos ⟨hpub, hlt⟩]
        exact ih p hbrest hbp
      · have hcond : ¬ (wrap64 (lp.NodeTypeSeq * 1000000) < 0 ∨
            wrap64 (p.NodeTypeSeq * 1000000) <
              wrap64 (lp.NodeTypeSeq * 1000000)) := by
          push_neg
          refine ⟨by omega, ?_⟩
          rw [wrap64_seq p hbp, wrap64_seq lp hlp]
          have : ¬ p.NodeTypeSeq * 1000000 < lp.NodeTypeSeq * 1000000 := by
            intro hc
            exact hlt ((mul_lt_mul_right (by norm_num)).mp hc)
          omega
        rw [if_neg hcond, if_neg (fun hc => hlt hc.2)]
        exact ih lp hbrest hlp
    · rw [if_neg hpub, if_neg (fun hc => hpub hc.1)]
      exact ih lp hbrest hlp

theorem pickLowest_cases (l : List PeerRegistration) :
    ∀ lp, pickLowest lp l = lp ∨
      (pickLowest lp l ∈ l ∧ (pickLowest lp l).IsPublisher = true) := by
  induction l with
  | nil => intro lp; left; rfl
  | cons p rest ih =>
    intro lp
    rw [pickLowest_cons]
    by_cases h : p.IsPublisher = true ∧ p.NodeTypeSeq < lp.NodeTypeSeq
    · rw [if_pos h]
      rcases ih p with h2 | h2
      · right
        rw [h2]
        exact ⟨List.mem_cons_self p rest, h.1⟩
      · right
        exact ⟨List.mem_cons_of_mem p h2.1, h2.2⟩
    · rw [if_neg h]
      rcases ih lp with h2 | h2
      · left; exact h2
      · right
        exact ⟨List.mem_cons_of_mem p h2.1, h2.2⟩

theorem pickLowest_min (l : List PeerRegistration) :
    ∀ lp, (pickLowest lp l).NodeTypeSeq ≤ lp.NodeTypeSeq ∧
      ∀ r ∈ l, r.IsPublisher = true →
        (pickLowest lp l).NodeTypeSeq ≤ r.NodeTypeSeq := by
  induction l with
  | nil => intro lp; exact ⟨le_refl _, by simp⟩
  | cons p rest ih =>
    intro lp
    rw [pickLowest_cons]
    by_cases h : p.IsPublisher = true ∧ p.NodeTypeSeq < lp.NodeTypeSeq
    · rw [if_pos h]
      obtain ⟨ih1, ih2⟩ := ih p
      refine ⟨le_of_lt (lt_of_le_of_lt ih1 h.2), ?_⟩
      intro r hr hrpub
      rcases List.mem_cons.mp hr with rfl | hr2
      · exact ih1
      · exact ih2 r hr2 hrpub
    · rw [if_neg h]
      obtain ⟨ih1, ih2⟩ := ih lp
      refine ⟨ih1, ?_⟩
      intro r hr hrpub
      rcases List.mem_cons.mp hr with rfl | hr2
      · have hnlt : ¬ r.NodeTypeSeq < lp.NodeTypeSeq := fun hlt => h ⟨hrpub, hlt⟩
        omega
      · exact ih2 r hr2 hrpub

theorem pickLowest_first (l : List PeerRegistration) :
    ∀ lp, pickLowest lp l = lp ∨
      ((pickLowest lp l).NodeTypeSeq < lp.NodeTypeSeq ∧
       ∃ l1 l2, l = l1 ++ pickLowest lp l :: l2 ∧
         ∀ r ∈ l1, r.IsPublisher = true →
           (pickLowest lp l).NodeTypeSeq < r.NodeTypeSeq) := by
  induction l with
  | nil => intro lp; left; rfl
  | cons p rest ih =>
    intro lp
    rw [pickLowest_cons]
    by_cases h : p.IsPublisher = true ∧ p.NodeTypeSeq < lp.NodeTypeSeq
    · rw [if_pos h]
      rcases ih p with h2 | ⟨hlt, l1, l2, hdec, hfirst⟩
      · right
        rw [h2]
        exact ⟨h.2, [], rest, rfl, by simp⟩
      · right
        refine ⟨lt_trans hlt h.2, p :: l1, l2, congrArg (List.cons p) hdec, ?_⟩
        intro r hr hrpub
        rcases List.mem_cons.mp hr with rfl | hr2
        · exact hlt
        · exact hfirst r hr2 hrpub
    · rw [if_neg h]
      rcases ih lp with h2 | ⟨hlt, l1, l2, hdec, hfirst⟩
      · left; exact h2
      · right
        refine ⟨hlt, p :: l1, l2, congrArg (List.cons p) hdec, ?_⟩
        intro r hr hrpub
        rcases List.mem_cons.mp hr with rfl | hr2
        · have hnlt : ¬ r.NodeTypeSeq < lp.NodeTypeSeq := fun hl => h ⟨hrpub, hl⟩
          omega
        · exact hfirst r hr2 hrpub

theorem selectSinglePublisher_cons_nonpub (p : PeerRegistration)
    (rest : List PeerRegistration) (h : ¬ p.IsPublisher = true) :
    selectSinglePublisher (p :: rest) = selectSinglePublisher rest := by
  simp only [selectSinglePublisher]
  rw [spLoop_cons, if_neg h]

theorem selectSinglePublisher_char (remote : List PeerRegistration)
    (hb : ∀ p ∈ remote, seqInRange p) :
    (selectSinglePublisher remote = none ∧
      ∀ p ∈ remote, p.IsPublisher = false) ∨
    (∃ q, selectSinglePublisher remote = some q ∧ q.IsPublisher = true ∧
      (∃ l1 l2, remote = l1 ++ q :: l2 ∧
        ∀ r ∈ l1, r.IsPublisher = true → q.NodeTypeSeq < r.NodeTypeSeq) ∧
      ∀ r ∈ remote, r.IsPublisher = true → q.NodeTypeSeq ≤ r.NodeTypeSeq) := by
  induction remote with
  | nil => left; exact ⟨rfl, by simp⟩
  | cons p rest ih =>
    have hbp : seqInRange p := hb p (List.mem_cons_self p rest)
    have hbrest : ∀ q ∈ rest, seqInRange q := fun q hq =>
      hb q (List.mem_cons_of_mem p hq)
    by_cases hpub : p.IsPublisher = true
    · right
      have hm := pickLowest_cases rest p
      have hmrange : seqInRange (pickLowest p rest) := by
        rcases hm with h2 | h2
        · rw [h2]; exact hbp
        · exact hbrest _ h2.1
      have hsome : selectSinglePublisher (p :: rest) =
          some (pickLowest p rest) := by
        have hnn1 := (seq_mul_bounds (pickLowest p rest) hmrange).1
        simp only [selectSinglePublisher]
        rw [spLoop_cons, if_pos hpub, if_pos (Or.inl (by norm_num)),
          spLoop_set rest p hbrest hbp]
        dsimp only
        rw [wrap64_seq (pickLowest p rest) hmrange]
        rw [if_neg (by omega)]
      refine ⟨pickLowest p rest, hsome, ?_, ?_, ?_⟩
      · rcases hm with h2 | h2
        · rw [h2]; exact hpub
        · exact h2.2
      · rcases pickLowest_first rest p with h2 | ⟨hlt, l1, l2, hdec, hfirst⟩
        · refine ⟨[], rest, by simp [h2], by simp⟩
        · refine ⟨p :: l1, l2, congrArg (List.cons p) hdec, ?_⟩
          intro r hr hrpub
          rcases List.mem_cons.mp hr with rfl | hr2
          · exact hlt
          · exact hfirst r hr2 hrpub
      · obtain ⟨hmin1, hmin2⟩ := pickLowest_min rest p
        intro r hr hrpub
        rcases List.mem_cons.mp hr with rfl | hr2
        · exact hmin1
        · exact hmin2 r hr2 hrpub
    · rw [selectSinglePublisher_cons_nonpub p rest hpub]
      rcases ih hbrest with ⟨hnone, hall⟩ | ⟨q, hsome, hqpub, hdec, hmin⟩
      · left
        refine ⟨hnone, ?_⟩
        intro r hr
        rcases List.mem_cons.mp hr with rfl | hr2
        · exact Bool.not_eq_true _ |>.mp hpub
        · exact hall r hr2
      · right
        refine ⟨q, hsome, hqpub, ?_, ?_⟩
        · obtain ⟨l1, l2, hd, hfirst⟩ := hdec
          refine ⟨p :: l1, l2, congrArg (List.cons p) hd, ?_⟩
          intro r hr hrpub
          rcases List.mem_cons.mp hr with rfl | hr2
          · exact absurd hrpub hpub
          · exact hfirst r hr2 hrpub
        · intro r hr hrpub
          rcases List.mem_cons.mp hr with rfl | hr2
          · exact absurd hrpub hpub
          · exact hmin r hr2 hrpub

/-- Counterexample to C6 as stated over every remote list: a negative
sequence number makes the tracked minimum negative, which the loop treats as
"not yet set", so a later publisher with a larger sequence number replaces
the true minimum.  Here the publisher with sequence number -5 is passed over
in favour of the one with sequence number 3. -/
theorem singlePublisher_counterexample :
    SinglePublisherTopology.SelectPeers "L" [regNeg, regP3] = [regP3] ∧
    regNeg ∈ [regNeg, regP3] ∧ regNeg.IsPublisher = true ∧
    regNeg.NodeTypeSeq < regP3.NodeTypeSeq := by decide

/-- C6 (amended): for every remote list whose sequence numbers are
nonnegative and small enough that `seq * 1000000` stays inside int64 (true
of testground sequence numbers, which are small positive integers), the
selection is empty exactly when no publisher exists, and otherwise is
exactly the first publisher in iteration order among those with the lowest
sequence number; in particular over seq 3 (publisher), seq 1 (publisher),
seq 2 (non-publisher) it returns the seq-1 publisher. -/
theorem singlePublisher_lowest (localID : PeerID)
    (remote : List PeerRegistration)
    (hb : ∀ p ∈ remote, seqInRange p) :
    (SinglePublisherTopology.SelectPeers localID remote = [] ↔
      ∀ p ∈ remote, p.IsPublisher = false) ∧
    (∀ q, SinglePublisherTopology.SelectPeers localID remote = [q] →
      q.IsPublisher = true ∧
      (∃ l1 l2, remote = l1 ++ q :: l2 ∧
        ∀ r ∈ l1, r.IsPublisher = true → q.NodeTypeSeq < r.NodeTypeSeq) ∧
      (∀ r ∈ remote, r.IsPublisher = true →
        q.NodeTypeSeq ≤ r.NodeTypeSeq)) ∧
    SinglePublisherTopology.SelectPeers "L"
      [{ Info := { ID := "x", Addrs := [] }, NodeTypeSeq := 3,
         IsPublisher := true },
       { Info := { ID := "y", Addrs := [] }, NodeTypeSeq := 1,
         IsPublisher := true },
       { Info := { ID := "z", Addrs := [] }, NodeTypeSeq := 2,
         IsPublisher := false }] =
      [{ Info := { ID := "y", Addrs := [] }, NodeTypeSeq := 1,
         IsPublisher := true }] := by
  rcases selectSinglePublisher_char remote hb with ⟨hnone, hall⟩ |
    ⟨q, hsome, hqpub, hdec, hmin⟩
  · have hres : SinglePublisherTopology.SelectPeers localID remote = [] := by
      simp [SinglePublisherTopology.SelectPeers, hnone]
    refine ⟨?_, ?_, by decide⟩
    · rw [hres]
      simpa using hall
    · intro q hq
      rw [hres] at hq
      exact absurd hq (by simp)
  · have hres : SinglePublisherTopology.SelectPeers localID remote = [q] := by
      simp [SinglePublisherTopology.SelectPeers, hsome]
    refine ⟨?_, ?_, by decide⟩
    · rw [hres]
      constructor
      · intro h
        exact absurd h (by simp)
      · intro hall
        obtain ⟨l1, l2, hd, _⟩ := hdec
        have hqmem : q ∈ remote := by
          rw [hd]
          exact List.mem_append.mpr (Or.inr (List.mem_cons_self _ _))
        have hf := hall q hqmem
        rw [hqpub] at hf
        exact absurd hf (by simp)
    · intro q2 hq2
      rw [hres] at hq2
      have hq' : q = q2 := by simpa using hq2
      subst hq'
      exact ⟨hqpub, hdec, hmin⟩

/-- Witness for C6 (amended) at a singleton registry holding one publisher. -/
theorem singlePublisher_lowest_witness :
    (SinglePublisherTopology.SelectPeers "L" [regA] = [] ↔
      ∀ p ∈ [regA], p.IsPublisher = false) ∧
    (∀ q, SinglePublisherTopology.SelectPeers "L" [regA] = [q] →
      q.IsPublisher = true ∧
      (∃ l1 l2, ([regA] : List PeerRegistration) = l1 ++ q :: l2 ∧
        ∀ r ∈ l1, r.IsPublisher = true → q.NodeTypeSeq < r.NodeTypeSeq) ∧
      (∀ r ∈ [regA], r.IsPublisher = true →
        q.NodeTypeSeq ≤ r.NodeTypeSeq)) ∧
    SinglePublisherTopology.SelectPeers "L"
      [{ Info := { ID := "x", Addrs := [] }, NodeTypeSeq := 3,
         IsPublisher := true },
       { Info := { ID := "y", Addrs := [] }, NodeTypeSeq := 1,
         IsPublisher := true },
       { Info := { ID := "z", Addrs := [] }, NodeTypeSeq := 2,
         IsPublisher := false }] =
      [{ Info := { ID := "y", Addrs := [] }, NodeTypeSeq := 1,
         IsPublisher := true }] :=
  singlePublisher_lowest "L" [regA]
    (by intro p hp; simp at hp; subst hp; exact ⟨by decide, by decide⟩)

theorem fixedLoop_wellformed (remote : List PeerRegistration) :
    ∀ conns : List String,
      (∀ c ∈ conns, (splitOnChar '-' c.toList).length = 3) →
      fixedLoop remote conns =
        .ok (conns.flatMap (fun c =>
          remote.filter (fun p =>
            (splitOnChar '-' c.toList).headD [] =
              (toString p.NodeTypeSeq).toList))) := by
  intro conns
  induction conns with
  | nil => intro _; rfl
  | cons c rest ih =>
    intro hwf
    have hc : (splitOnChar '-' c.toList).length = 3 :=
      hwf c (List.mem_cons_self _ _)
    have hrest := ih (fun d hd => hwf d (List.mem_cons_of_mem _ hd))
    simp only [fixedLoop]
    rw [if_neg (by omega), hrest]
    simp

theorem fixedLoop_malformed (remote : List PeerRegistration) :
    ∀ (conns : List String) (c : String), c ∈ conns →
      (splitOnChar '-' c.toList).length ≠ 3 →
      ∃ c', c' ∈ conns ∧ (splitOnChar '-' c'.toList).length ≠ 3 ∧
        fixedLoop remote conns = .error (.malformedTopologySpec c') := by
  intro conns
  induction conns with
  | nil => intro c hc _; exact absurd hc (by simp)
  | cons d rest ih =>
    intro c hc hbad
    by_cases hd : (splitOnChar '-' d.toList).length ≠ 3
    · refine ⟨d, List.mem_cons_self _ _, hd, ?_⟩
      simp only [fixedLoop]
      rw [if_pos hd]
    · rcases List.mem_cons.mp hc with rfl | hc2
      · exact absurd hbad hd
      · obtain ⟨c', hc', hbad', heq⟩ := ih c hc2 hbad
        refine ⟨c', List.mem_cons_of_mem _ hc', hbad', ?_⟩
        simp only [fixedLoop]
        rw [if_neg hd, heq]

/-- Counterexample to C7 as stated over every remote list: with an empty
remote list the malformed two-field specifier "5-x" is never validated and
the call returns the empty selection instead of the fatal error. -/
theorem fixedTopology_counterexample :
    FixedTopology.SelectPeers ["5-x"] "L" [] = .ok [] ∧
    (splitOnChar '-' "5-x".toList).length ≠ 3 := by
  exact ⟨rfl, by decide⟩

/-- C7 (amended): for every non-empty remote list, each specifier must have
exactly three dash-separated fields — if any specifier has a different
field count the call fails with the malformed-spec fatal error naming some
malformed specifier of the list — and when all specifiers are well-formed
the call returns, specifier by specifier in order, every remote peer whose
sequence number stringifies to the first field of the specifier. -/
theorem fixedTopology_spec (Connections : List String) (localID : PeerID)
    (remote : List PeerRegistration) (hne : remote ≠ []) :
    ((∀ c ∈ Connections, (splitOnChar '-' c.toList).length = 3) →
      FixedTopology.SelectPeers Connections localID remote =
        .ok (Connections.flatMap (fun c =>
          remote.filter (fun p =>
            (splitOnChar '-' c.toList).headD [] =
              (toString p.NodeTypeSeq).toList)))) ∧
    (∀ c ∈ Connections, (splitOnChar '-' c.toList).length ≠ 3 →
      ∃ c', c' ∈ Connections ∧ (splitOnChar '-' c'.toList).length ≠ 3 ∧
        FixedTopology.SelectPeers Connections localID remote =
          .error (.malformedTopologySpec c')) := by
  have hlen : ¬ remote.length = 0 := by
    intro h
    exact hne (List.length_eq_zero.mp h)
  have hsel : FixedTopology.SelectPeers Connections localID remote =
      fixedLoop remote Connections := by
    unfold FixedTopology.SelectPeers
    rw [if_neg hlen]
  constructor
  · intro hwf
    rw [hsel]
    exact fixedLoop_wellformed remote Connections hwf
  · intro c hc hbad
    obtain ⟨c', h1, h2, h3⟩ := fixedLoop_malformed remote Connections c hc hbad
    exact ⟨c', h1, h2, by rw [hsel]; exact h3⟩

/-- Witness for C7 (amended): specifier "5-x-y" against the registry with
sequence numbers 5 and 7 selects exactly the seq-5 peer. -/
theorem fixedTopology_spec_witness :
    ((∀ c ∈ ["5-x-y"], (splitOnChar '-' c.toList).length = 3) →
      FixedTopology.SelectPeers ["5-x-y"] "L" [regA, regB] =
        .ok ((["5-x-y"] : List String).flatMap (fun c =>
          [regA, regB].filter (fun p =>
            (splitOnChar '-' c.toList).headD [] =
              (toString p.NodeTypeSeq).toList)))) ∧
    (∀ c ∈ ["5-x-y"], (splitOnChar '-' c.toList).length ≠ 3 →
      ∃ c', c' ∈ ["5-x-y"] ∧ (splitOnChar '-' c'.toList).length ≠ 3 ∧
        FixedTopology.SelectPeers ["5-x-y"] "L" [regA, regB] =
          .error (.malformedTopologySpec c')) :=
  fixedTopology_spec ["5-x-y"] "L" [regA, regB] (by decide)
